import Mathlib

/-!
Verification of the `testfixtures.logcapture` module (`LogCapture`).

The development shallowly embeds the parts of `logcapture.py` that the
properties below are about:

* the order-sensitive and order-insensitive branches of
  `LogCapture.check_present` (rows are an arbitrary type with decidable
  equality, mirroring the fact that the Python code only ever compares
  rows with `==`);
* the keyword-argument validation at the top of `check_present`;
* the attribute projection `LogCapture._actual_row` / `LogCapture.actual`;
* `LogCapture.check`;
* the install / uninstall / uninstall_all lifecycle acting on the logging
  registry (modelled as a total map from logger names to configurations,
  since `logging.getLogger` auto-creates loggers) and on the process-wide
  `instances` set.

The external comparison service `testfixtures.comparison.compare` is not
part of the sources; it is modelled from the spec (see `compareMismatch`).
-/

namespace LogCaptureSpec

variable {α : Type} [DecidableEq α]

/-! ### Python list primitives used by `check_present`

`idxOfOpt x l` is Python `l.index(x)` returning `none` instead of raising
`ValueError`, and `findFrom l x start` is Python `l.index(x, start)`. -/

/-- Python `list.index` without a start argument: index of the first element
equal to `x`, or `none` when `x` does not occur. -/
def idxOfOpt (x : α) : List α → Option Nat
  | [] => Option.none
  | a :: as => if a = x then some 0 else (idxOfOpt x as).map (fun j => j + 1)

/-- Python `list.index(x, start)`: index of the first element equal to `x` at
position `start` or later, or `none` when there is no such element. -/
def findFrom (l : List α) (x : α) (start : Nat) : Option Nat :=
  (idxOfOpt x (l.drop start)).map (fun j => start + j)

theorem idxOfOpt_eq_none_iff {x : α} {l : List α} :
    idxOfOpt x l = Option.none ↔ x ∉ l := by
  induction l with
  | nil => simp [idxOfOpt]
  | cons a as ih =>
    by_cases hax : a = x
    · subst hax
      simp [idxOfOpt]
    · simp [idxOfOpt, hax, ih, Option.map_eq_none', Ne.symm hax]

theorem idxOfOpt_some_spec {x : α} {l : List α} {j : Nat}
    (h : idxOfOpt x l = some j) :
    x ∉ l.take j ∧ l.drop j = x :: l.drop (j + 1) := by
  induction l generalizing j with
  | nil => simp [idxOfOpt] at h
  | cons a as ih =>
    by_cases hax : a = x
    · subst hax
      simp [idxOfOpt] at h
      subst h
      simp
    · simp [idxOfOpt, hax] at h
      obtain ⟨j0, hj0, rfl⟩ := h
      obtain ⟨h1, h2⟩ := ih hj0
      refine ⟨?_, ?_⟩
      · simp [List.take_succ_cons]
        exact ⟨fun hxa => hax hxa.symm, h1⟩
      · simpa using h2

theorem idxOfOpt_some_mem {x : α} {l : List α} {j : Nat}
    (h : idxOfOpt x l = some j) : x ∈ l := by
  have h2 := (idxOfOpt_some_spec h).2
  have : x ∈ l.drop j := by
    rw [h2]
    exact List.mem_cons_self _ _
  exact List.mem_of_mem_drop this

theorem findFrom_eq_none_iff {l : List α} {x : α} {start : Nat} :
    findFrom l x start = Option.none ↔ x ∉ l.drop start := by
  unfold findFrom
  rw [Option.map_eq_none']
  exact idxOfOpt_eq_none_iff

theorem findFrom_some_spec {l : List α} {x : α} {start i : Nat}
    (h : findFrom l x start = some i) :
    start ≤ i ∧ x ∉ (l.drop start).take (i - start) ∧
      l.drop i = x :: l.drop (i + 1) := by
  unfold findFrom at h
  rw [Option.map_eq_some'] at h
  obtain ⟨j, hj, rfl⟩ := h
  obtain ⟨h1, h2⟩ := idxOfOpt_some_spec hj
  refine ⟨Nat.le_add_right _ _, ?_, ?_⟩
  · simpa [Nat.add_sub_cancel_left] using h1
  · calc l.drop (start + j) = (l.drop start).drop j := (List.drop_drop j start l).symm
      _ = x :: (l.drop start).drop (j + 1) := h2
      _ = x :: l.drop (start + j + 1) := by
            rw [List.drop_drop, Nat.add_assoc]

/-! ### The comparison service (external collaborator)

`testfixtures.comparison.compare` is imported by `logcapture.py` but is not
part of the sources under verification. -/

/-- Modelled from the spec: the external comparison service
`testfixtures.comparison.compare(expected, actual, recursive)` either
returns successfully (when the two sequences are equal) or raises a
descriptive `MismatchError` carrying the structured expected/actual diff.
Deep (`recursive`) and structural element equality coincide in this
embedding, where rows are compared by their one structural equality. -/
def compareMismatch {β : Type} [DecidableEq β] (expected actual : List β)
    (recursive : Bool) : Option (List β × List β) :=
  if expected = actual then Option.none else some (expected, actual)

/-- Whether a call to the comparison service raises. -/
def compareRaisesOn {β : Type} [DecidableEq β] (expected actual : List β)
    (recursive : Bool) : Bool :=
  (compareMismatch expected actual recursive).isSome

theorem compareMismatch_eq_none_iff {β : Type} [DecidableEq β]
    {expected actual : List β} {recursive : Bool} :
    compareMismatch expected actual recursive = Option.none ↔ expected = actual := by
  unfold compareMismatch
  split <;> simp_all

/-! ### Order-sensitive `check_present` (logcapture.py lines 204-223) -/

/-- Outcome of the order-sensitive matching loop: either every expected
entry was located (the Python loop falls through to its `else: return`) or
the loop breaks and `compare` is called with the recorded `matched` list and
the cursor `matched_indices[-1]`, both after the conditional pop. -/
inductive OrderedOutcome (α : Type) where
  | allMatched : OrderedOutcome α
  | compareCall : List α → Nat → OrderedOutcome α
deriving DecidableEq

/-- The `for entry in expected` loop of the order-sensitive branch of
`LogCapture.check_present`. `matched_indices` starts as `[0]` and its last
element is the search cursor; on a failed `actual.index(entry, cursor)` the
loop pops the most recent match (when one exists) and breaks. -/
def presentLoop (actual : List α) :
    List α → List Nat → List α → OrderedOutcome α
  | [], _, _ => OrderedOutcome.allMatched
  | entry :: rest, matched_indices, matched =>
    match findFrom actual entry (matched_indices.getLastD 0) with
    | some index =>
        presentLoop actual rest (matched_indices ++ [index + 1]) (matched ++ [entry])
    | Option.none =>
        if 1 < matched_indices.length then
          OrderedOutcome.compareCall matched.dropLast
            (matched_indices.dropLast.getLastD 0)
        else
          OrderedOutcome.compareCall matched (matched_indices.getLastD 0)

/-- The order-sensitive branch of `LogCapture.check_present`. -/
def check_present_ordered (expected actual : List α) : OrderedOutcome α :=
  presentLoop actual expected [0] []

/-- Whether the order-sensitive `check_present` raises: it raises exactly
when the loop breaks and the final `compare(expected, matched + actual from
the cursor on)` call fails. -/
def orderedRaises (expected actual : List α) (recursive : Bool) : Bool :=
  match check_present_ordered expected actual with
  | OrderedOutcome.allMatched => false
  | OrderedOutcome.compareCall matched cursor =>
      compareRaisesOn expected (matched ++ actual.drop cursor) recursive

/-- Plain greedy first-occurrence subsequence search, the skeleton of the
matching loop with the bookkeeping stripped. -/
def greedyFrom (actual : List α) : List α → Nat → Bool
  | [], _ => true
  | entry :: rest, cursor =>
    match findFrom actual entry cursor with
    | some index => greedyFrom actual rest (index + 1)
    | Option.none => false

theorem presentLoop_allMatched_iff (actual : List α) :
    ∀ (es : List α) (inds : List Nat) (m : List α),
      presentLoop actual es inds m = OrderedOutcome.allMatched ↔
        greedyFrom actual es (inds.getLastD 0) = true := by
  intro es
  induction es with
  | nil => intro inds m; simp [presentLoop, greedyFrom]
  | cons entry rest ih =>
    intro inds m
    unfold presentLoop greedyFrom
    cases hf : findFrom actual entry (inds.getLastD 0) with
    | none => simp [hf]; split <;> simp
    | some index =>
      simp only [hf]
      rw [ih]
      simp [List.getLastD_concat]

/-! ### Greedy first-occurrence matching is a complete subsequence test -/

theorem sublist_exchange {x : α} {rest l1 l2 : List α}
    (hx : x ∉ l1) (h : (x :: rest).Sublist (l1 ++ x :: l2)) :
    rest.Sublist l2 := by
  induction l1 with
  | nil =>
    have h2 : (x :: rest).Sublist (x :: l2) := by simpa using h
    exact List.cons_sublist_cons.mp h2
  | cons a l1 ih =>
    have hxa : x ≠ a := by
      intro hcon
      exact hx (by simp [hcon])
    have hx1 : x ∉ l1 := fun hmem => hx (List.mem_cons_of_mem _ hmem)
    cases h with
    | cons _ htail => exact ih hx1 htail
    | cons₂ _ htail => exact absurd rfl hxa

theorem greedyFrom_iff_sublist (actual : List α) :
    ∀ (es : List α) (cursor : Nat),
      greedyFrom actual es cursor = true ↔ es.Sublist (actual.drop cursor) := by
  intro es
  induction es with
  | nil => intro cursor; simp [greedyFrom]
  | cons entry rest ih =>
    intro cursor
    unfold greedyFrom
    cases hf : findFrom actual entry cursor with
    | none =>
      simp only [hf]
      constructor
      · intro hcon; cases hcon
      · intro hsub
        have hmem : entry ∈ actual.drop cursor :=
          hsub.subset (List.mem_cons_self _ _)
        exact absurd hmem (findFrom_eq_none_iff.mp hf)
    | some index =>
      simp only [hf]
      obtain ⟨hci, hnotin, hdropi⟩ := findFrom_some_spec hf
      rw [ih]
      have hsplit : actual.drop cursor =
          (actual.drop cursor).take (index - cursor) ++ entry :: actual.drop (index + 1) := by
        conv_lhs => rw [← List.take_append_drop (index - cursor) (actual.drop cursor)]
        rw [List.drop_drop]
        congr 1
        rw [show cursor + (index - cursor) = index by omega]
        exact hdropi
      constructor
      · intro hsub
        have base : (entry :: actual.drop (index + 1)).Sublist (actual.drop cursor) := by
          rw [hsplit]
          exact List.sublist_append_right _ _
        exact ((List.cons_sublist_cons.mpr hsub).trans base)
      · intro hsub
        rw [hsplit] at hsub
        exact sublist_exchange hnotin hsub

/-! ### The compare call issued after a break never succeeds -/

/-- Invariant of the matching loop state: either nothing has been matched
yet (`matched_indices == [0]`), or the last recorded index came from a
successful first-occurrence search started at the previous cursor. -/
def LoopInv (actual : List α) (inds : List Nat) (matched : List α) : Prop :=
  (inds = [0] ∧ matched = []) ∨
  ∃ inds₀ i m₀ x, inds = inds₀ ++ [i + 1] ∧ matched = m₀ ++ [x] ∧ inds₀ ≠ [] ∧
    findFrom actual x (inds₀.getLastD 0) = some i

theorem LoopInv.ne_nil {actual : List α} {inds : List Nat} {matched : List α}
    (h : LoopInv actual inds matched) : inds ≠ [] := by
  rcases h with ⟨rfl, -⟩ | ⟨inds₀, i, m₀, x, rfl, -⟩
  · simp
  · simp

theorem presentLoop_compareCall_ne (actual : List α) :
    ∀ (es : List α) (inds : List Nat) (matched : List α),
      LoopInv actual inds matched →
      ∀ (mf : List α) (cf : Nat),
        presentLoop actual es inds matched = OrderedOutcome.compareCall mf cf →
        mf ++ actual.drop cf ≠ matched ++ es := by
  intro es
  induction es with
  | nil =>
    intro inds matched _ mf cf heq
    exact absurd heq (by simp [presentLoop])
  | cons entry rest ih =>
    intro inds matched hinv mf cf heq
    unfold presentLoop at heq
    cases hf : findFrom actual entry (inds.getLastD 0) with
    | some index =>
      rw [hf] at heq
      have hinv2 : LoopInv actual (inds ++ [index + 1]) (matched ++ [entry]) :=
        Or.inr ⟨inds, index, matched, entry, rfl, rfl, hinv.ne_nil, hf⟩
      have hne := ih (inds ++ [index + 1]) (matched ++ [entry]) hinv2 mf cf heq
      simpa [List.append_assoc] using hne
    | none =>
      rw [hf] at heq
      by_cases hlen : 1 < inds.length
      · rw [if_pos hlen] at heq
        rcases hinv with ⟨rfl, rfl⟩ | ⟨inds₀, i, m₀, x, hinds, hm, h0ne, hfx⟩
        · simp at hlen
        · subst hinds; subst hm
          rw [List.dropLast_concat, List.dropLast_concat] at heq
          obtain ⟨rfl, rfl⟩ :
              mf = m₀ ∧ cf = inds₀.getLastD 0 := by
            cases heq; exact ⟨rfl, rfl⟩
          intro hcon
          rw [List.append_assoc] at hcon
          have hdrop : actual.drop (inds₀.getLastD 0) = x :: entry :: rest := by
            have := List.append_cancel_left hcon
            simpa using this
          obtain ⟨hci, hnotin, hdropi⟩ := findFrom_some_spec hfx
          have hie : i = inds₀.getLastD 0 := by
            by_contra hne
            have hlt : inds₀.getLastD 0 < i := lt_of_le_of_ne hci (Ne.symm hne)
            obtain ⟨k, hk⟩ : ∃ k, i - inds₀.getLastD 0 = k + 1 :=
              ⟨i - inds₀.getLastD 0 - 1, by omega⟩
            have hxmem : x ∈ (actual.drop (inds₀.getLastD 0)).take (i - inds₀.getLastD 0) := by
              rw [hdrop, hk]
              simp
            exact hnotin hxmem
          rw [hie] at hdropi hf
          rw [hdrop] at hdropi
          have htail : actual.drop (inds₀.getLastD 0 + 1) = entry :: rest :=
            (List.cons_eq_cons.mp hdropi).2.symm
          rw [List.getLastD_concat] at hf
          have : entry ∈ actual.drop (inds₀.getLastD 0 + 1) := by
            rw [htail]; exact List.mem_cons_self _ _
          exact absurd this (findFrom_eq_none_iff.mp hf)
      · rw [if_neg hlen] at heq
        rcases hinv with ⟨rfl, rfl⟩ | ⟨inds₀, i, m₀, x, hinds, hm, h0ne, hfx⟩
        · obtain ⟨rfl, rfl⟩ : mf = [] ∧ cf = 0 := by
            cases heq; exact ⟨rfl, rfl⟩
          intro hcon
          simp only [List.nil_append, List.drop_zero] at hcon
          have : entry ∈ actual := by rw [hcon]; exact List.mem_cons_self _ _
          have hnone : entry ∉ actual.drop ((([0] : List Nat)).getLastD 0) :=
            findFrom_eq_none_iff.mp hf
          simp at hnone
          exact hnone this
        · exfalso
          apply hlen
          subst hinds
          have : inds₀.length ≥ 1 := List.length_pos.mpr h0ne
          simp [List.length_append]
          omega

/-! ### Order-insensitive `check_present` (logcapture.py lines 224-243) -/

/-- State reached when the order-insensitive loop stops: the remaining
expected pool, the entries recorded as matched, and the other observed
entries. On failure these are the three lists rendered in the
`AssertionError` message, in the order matched / expected / unmatched. -/
structure UnorderedState (α : Type) where
  pool : List α
  matched : List α
  unmatched : List α
deriving DecidableEq

/-- The `for entry in actual` loop of the order-insensitive branch: each
actual entry either pops the first equal element of the expected pool onto
`matched` or is recorded as `unmatched`; the loop breaks as soon as the
pool is empty. -/
def unorderedLoop : List α → List α → List α → List α → UnorderedState α
  | [], pool, matched, unmatched => ⟨pool, matched, unmatched⟩
  | entry :: rest, pool, matched, unmatched =>
    match idxOfOpt entry pool with
    | Option.none =>
        if pool.isEmpty then ⟨pool, matched, unmatched ++ [entry]⟩
        else unorderedLoop rest pool matched (unmatched ++ [entry])
    | some index =>
        let popped := pool.getD index entry
        let pool2 := pool.eraseIdx index
        if pool2.isEmpty then ⟨pool2, matched ++ [popped], unmatched⟩
        else unorderedLoop rest pool2 (matched ++ [popped]) unmatched

/-- The order-insensitive branch of `LogCapture.check_present`: `none` when
the expected pool is exhausted (silent success), otherwise the final state,
whose three lists are rendered into the raised `AssertionError`. -/
def check_present_unordered (expected actual : List α) :
    Option (UnorderedState α) :=
  if (unorderedLoop actual expected [] []).pool.isEmpty then Option.none
  else some (unorderedLoop actual expected [] [])

theorem idxOfOpt_some_getD {x : α} {l : List α} {j : Nat} (d : α)
    (h : idxOfOpt x l = some j) : l.getD j d = x := by
  induction l generalizing j with
  | nil => simp [idxOfOpt] at h
  | cons a as ih =>
    by_cases hax : a = x
    · subst hax
      simp [idxOfOpt] at h
      subst h
      rfl
    · simp [idxOfOpt, hax] at h
      obtain ⟨j0, hj0, rfl⟩ := h
      simpa using ih hj0

theorem idxOfOpt_some_eraseIdx {x : α} {l : List α} {j : Nat}
    (h : idxOfOpt x l = some j) : l.eraseIdx j = l.erase x := by
  induction l generalizing j with
  | nil => simp [idxOfOpt] at h
  | cons a as ih =>
    by_cases hax : a = x
    · subst hax
      simp [idxOfOpt] at h
      subst h
      simp [List.eraseIdx, List.erase_cons_head]
    · simp [idxOfOpt, hax] at h
      obtain ⟨j0, hj0, rfl⟩ := h
      have hbeq : (a == x) = false := by
        simpa using hax
      simp [List.eraseIdx, List.erase_cons, hbeq, ih hj0]

theorem subperm_cons_of_not_mem {pool rest : List α} {entry : α}
    (hnm : entry ∉ pool) : pool.Subperm (entry :: rest) ↔ pool.Subperm rest := by
  constructor
  · intro h
    rw [List.subperm_ext_iff] at h ⊢
    intro x hx
    have := h x hx
    have hxe : x ≠ entry := fun hcon => hnm (hcon ▸ hx)
    rwa [List.count_cons, if_neg (by simpa using fun hcon => hxe hcon.symm),
      Nat.add_zero] at this
  · intro h
    exact h.trans (List.sublist_cons_self _ _).subperm

theorem unorderedLoop_pool_empty_iff :
    ∀ (actualL pool matched unmatched : List α),
      (unorderedLoop actualL pool matched unmatched).pool = [] ↔
        pool.Subperm actualL := by
  intro actualL
  induction actualL with
  | nil =>
    intro pool matched unmatched
    simp [unorderedLoop, List.subperm_nil]
  | cons entry rest ih =>
    intro pool matched unmatched
    unfold unorderedLoop
    cases hidx : idxOfOpt entry pool with
    | none =>
      have hnm : entry ∉ pool := idxOfOpt_eq_none_iff.mp hidx
      simp only [hidx]
      by_cases hp : pool.isEmpty
      · rw [if_pos hp]
        rw [List.isEmpty_iff] at hp
        subst hp
        simp [List.nil_subperm]
      · rw [if_neg hp]
        rw [ih]
        exact (subperm_cons_of_not_mem hnm).symm
    | some index =>
      have hmem : entry ∈ pool := idxOfOpt_some_mem hidx
      have hperm : pool.Perm (entry :: pool.eraseIdx index) := by
        rw [idxOfOpt_some_eraseIdx hidx]
        exact List.perm_cons_erase hmem
      have key : pool.Subperm (entry :: rest) ↔ (pool.eraseIdx index).Subperm rest := by
        rw [hperm.subperm_right]
        exact List.subperm_cons entry
      simp only [hidx, idxOfOpt_some_getD entry hidx]
      by_cases hp2 : (pool.eraseIdx index).isEmpty
      · rw [if_pos hp2]
        rw [List.isEmpty_iff] at hp2
        simp only [hp2]
        rw [key, hp2]
        simp [List.nil_subperm]
      · rw [if_neg hp2]
        rw [ih, key]

theorem unorderedLoop_matched_pool_perm :
    ∀ (actualL pool matched unmatched : List α),
      ((unorderedLoop actualL pool matched unmatched).matched ++
        (unorderedLoop actualL pool matched unmatched).pool).Perm
        (matched ++ pool) := by
  intro actualL
  induction actualL with
  | nil =>
    intro pool matched unmatched
    simp [unorderedLoop]
  | cons entry rest ih =>
    intro pool matched unmatched
    unfold unorderedLoop
    cases hidx : idxOfOpt entry pool with
    | none =>
      simp only [hidx]
      by_cases hp : pool.isEmpty
      · rw [if_pos hp]
      · rw [if_neg hp]
        exact ih pool matched (unmatched ++ [entry])
    | some index =>
      have hmem : entry ∈ pool := idxOfOpt_some_mem hidx
      have hperm : pool.Perm (entry :: pool.eraseIdx index) := by
        rw [idxOfOpt_some_eraseIdx hidx]
        exact List.perm_cons_erase hmem
      have hstep :
          ((matched ++ [entry]) ++ pool.eraseIdx index).Perm (matched ++ pool) := by
        rw [List.append_assoc]
        exact (List.Perm.append_left matched (by simpa using hperm.symm))
      simp only [hidx, idxOfOpt_some_getD entry hidx]
      by_cases hp2 : (pool.eraseIdx index).isEmpty
      · rw [if_pos hp2]
        exact hstep
      · rw [if_neg hp2]
        exact (ih (pool.eraseIdx index) (matched ++ [entry]) unmatched).trans hstep

/-! ### Attribute projection (`LogCapture._actual_row` / `LogCapture.actual`,
logcapture.py lines 132-159) -/

/-- A Python value as far as this module observes one. -/
inductive PyVal where
  | pyNone : PyVal
  | pyStr : String → PyVal
  | pyInt : Int → PyVal
deriving DecidableEq

/-- A value held by a record attribute: either a plain value or a
zero-argument callable (such as `LogRecord.getMessage`). -/
inductive PyAttr where
  | plain : PyVal → PyAttr
  | callable0 : (Unit → PyVal) → PyAttr

/-- A log record, observed through `getattr`: a partial map from attribute
names to attribute values. -/
structure LogRecord where
  attrs : String → Option PyAttr

/-- Python `getattr(record, a, None)`: a missing attribute resolves to the
`None` sentinel (a plain value). -/
def pyGetattr (record : LogRecord) (a : String) : PyAttr :=
  (record.attrs a).getD (PyAttr.plain PyVal.pyNone)

/-- The `if callable(value): value = value()` normalisation inside
`_actual_row`. -/
def resolveAttr : PyAttr → PyVal
  | PyAttr.plain v => v
  | PyAttr.callable0 f => f ()

/-- `LogCapture._actual_row`: the values yielded for one record, one per
attribute name, in attribute order. -/
def actualRowVals (attributes : List String) (record : LogRecord) : List PyVal :=
  attributes.map (fun a => resolveAttr (pyGetattr record a))

/-- A projected row: `actual()` appends `result[0]` for a 1-tuple and the
whole tuple otherwise. -/
inductive Row where
  | scalar : PyVal → Row
  | tuple : List PyVal → Row
deriving DecidableEq

/-- The `attributes` constructor argument: either a sequence of attribute
names or a callable applied to the whole record. -/
inductive Extraction where
  | attrNames : List String → Extraction
  | wholeRecord : (LogRecord → Row) → Extraction

/-- The per-record body of the `actual()` loop for the attribute-name case:
a single extracted value is unwrapped, any other arity stays a tuple. -/
def projectRecord (attributes : List String) (record : LogRecord) : Row :=
  match actualRowVals attributes record with
  | [v] => Row.scalar v
  | vs => Row.tuple vs

/-- `LogCapture.actual()`: project every buffered record, in buffer order. -/
def actualRows (extraction : Extraction) (records : List LogRecord) : List Row :=
  match extraction with
  | Extraction.wholeRecord f => records.map f
  | Extraction.attrNames attributes => records.map (projectRecord attributes)

/-- `LogCapture.check`: delegate to the comparison service with the
captured rows and the recursive flag. -/
def check (extraction : Extraction) (recursive : Bool)
    (records : List LogRecord) (expected : List Row) :
    Option (List Row × List Row) :=
  compareMismatch expected (actualRows extraction records) recursive

theorem projectRecord_not_single {attributes : List String}
    {record : LogRecord} (h : attributes.length ≠ 1) :
    projectRecord attributes record =
      Row.tuple (actualRowVals attributes record) := by
  unfold projectRecord
  have hlen : (actualRowVals attributes record).length = attributes.length := by
    simp [actualRowVals]
  cases hvals : actualRowVals attributes record with
  | nil => rfl
  | cons v vs =>
    cases vs with
    | nil =>
      exfalso
      apply h
      rw [← hlen, hvals]
      rfl
    | cons w ws => rfl

/-! ### Install / uninstall lifecycle (logcapture.py lines 83-130)

The logging registry is modelled as a total map from dotted names to
logger configurations; `logging.getLogger` auto-creates loggers, so every
name always has a configuration. Sessions are identified by their handler
value `h : H`; the per-session `self.old` dictionaries and constructor
arguments live in `SessionData`, and `instances` is the process-wide set
of installed sessions. -/

/-- The externally visible per-logger state touched by `LogCapture`:
`level`, `handlers`, `disabled` and `propagate`. -/
structure LoggerConfig (H : Type) where
  level : Nat
  handlers : List H
  disabled : Bool
  propagate : Bool
deriving DecidableEq

/-- Per-session data: target names, capture level, propagate override, and
the `self.old` snapshot dictionaries (the source stores the propagation
snapshot under the misspelled key `progagate`; the key is consistently
misspelled in install and uninstall, so a plain field is faithful). -/
structure SessionData (H : Type) where
  names : List String
  level : Nat
  propagate : Option Bool
  saved_levels : String → Option Nat
  saved_handlers : String → Option (List H)
  saved_disabled : String → Option Bool
  saved_propagate : String → Option Bool

/-- The whole mutable world the lifecycle code touches. -/
structure LoggingWorld (H : Type) where
  registry : String → LoggerConfig H
  sessions : H → SessionData H
  instances : List H

/-- Pointwise update of a map. -/
def mapUpdate {κ β : Type} [DecidableEq κ] (f : κ → β) (k : κ) (v : β) : κ → β :=
  fun x => if x = k then v else f x

variable {H : Type} [DecidableEq H]

/-- One iteration of the `for name in self.names` loop of
`LogCapture.install`: snapshot the current configuration into `self.old`,
then set the level, replace the handler list with `[self]`, clear
`disabled`, and force `propagate` when an override was given. -/
def installName (h : H) (st : LoggingWorld H) (name : String) : LoggingWorld H :=
  let logger := st.registry name
  let sd := st.sessions h
  let sd2 : SessionData H :=
    { sd with
      saved_levels := mapUpdate sd.saved_levels name (some logger.level)
      saved_handlers := mapUpdate sd.saved_handlers name (some logger.handlers)
      saved_disabled := mapUpdate sd.saved_disabled name (some logger.disabled)
      saved_propagate := mapUpdate sd.saved_propagate name (some logger.propagate) }
  let logger2 : LoggerConfig H :=
    { level := sd.level
      handlers := [h]
      disabled := false
      propagate :=
        match sd.propagate with
        | some p => p
        | Option.none => logger.propagate }
  { st with
    sessions := mapUpdate st.sessions h sd2
    registry := mapUpdate st.registry name logger2 }

/-- Python `set.add`. -/
def addInstance (l : List H) (h : H) : List H :=
  if h ∈ l then l else h :: l

/-- `LogCapture.install`: reconfigure every target logger, then add the
session to the process-wide `instances` set. -/
def install (h : H) (st : LoggingWorld H) : LoggingWorld H :=
  let st2 := ((st.sessions h).names).foldl (installName h) st
  { st2 with instances := addInstance st2.instances h }

/-- One iteration of the `for name in self.names` loop of
`LogCapture.uninstall`: restore level, handlers, disabled and propagate
from the `self.old` snapshots. The `getD` defaults are never exercised on
any state reachable through `install`, which populates every snapshot; the
Python code indexes `self.old[...][name]` directly. -/
def uninstallName (h : H) (st : LoggingWorld H) (name : String) : LoggingWorld H :=
  let sd := st.sessions h
  let logger := st.registry name
  let logger2 : LoggerConfig H :=
    { level := (sd.saved_levels name).getD logger.level
      handlers := (sd.saved_handlers name).getD logger.handlers
      disabled := (sd.saved_disabled name).getD logger.disabled
      propagate := (sd.saved_propagate name).getD logger.propagate }
  { st with registry := mapUpdate st.registry name logger2 }

/-- `LogCapture.uninstall`: when the session is a member of `instances`,
restore every target logger and remove the session from the set; otherwise
do nothing. -/
def uninstall (h : H) (st : LoggingWorld H) : LoggingWorld H :=
  if h ∈ st.instances then
    let st2 := ((st.sessions h).names).foldl (uninstallName h) st
    { st2 with instances := st2.instances.filter (fun x => x != h) }
  else st

/-- `LogCapture.uninstall_all`: uninstall every session in a snapshot
(`tuple(cls.instances)`) of the active set. -/
def uninstall_all (st : LoggingWorld H) : LoggingWorld H :=
  st.instances.foldl (fun acc h => uninstall h acc) st

/-- The configuration `install` forces onto a target logger. -/
def captureConfig (h : H) (sd : SessionData H) (c : LoggerConfig H) : LoggerConfig H :=
  { level := sd.level
    handlers := [h]
    disabled := false
    propagate :=
      match sd.propagate with
      | some p => p
      | Option.none => c.propagate }

theorem LoggerConfig.eta (c : LoggerConfig H) :
    (⟨c.level, c.handlers, c.disabled, c.propagate⟩ : LoggerConfig H) = c := by
  cases c
  rfl

theorem installName_registry_other {h : H} {st : LoggingWorld H} {name n : String}
    (hne : n ≠ name) : (installName h st name).registry n = st.registry n := by
  simp [installName, mapUpdate, hne]

theorem installName_registry_same {h : H} {st : LoggingWorld H} {name : String} :
    (installName h st name).registry name =
      captureConfig h (st.sessions h) (st.registry name) := by
  simp [installName, mapUpdate, captureConfig]

theorem installName_static {h : H} {st : LoggingWorld H} {name : String} (g : H) :
    ((installName h st name).sessions g).names = (st.sessions g).names ∧
    ((installName h st name).sessions g).level = (st.sessions g).level ∧
    ((installName h st name).sessions g).propagate = (st.sessions g).propagate ∧
    (installName h st name).instances = st.instances := by
  by_cases hg : g = h
  · subst hg
    simp [installName, mapUpdate]
  · simp [installName, mapUpdate, hg]

theorem installName_saved_same {h : H} {st : LoggingWorld H} {name : String} :
    ((installName h st name).sessions h).saved_levels name = some (st.registry name).level ∧
    ((installName h st name).sessions h).saved_handlers name = some (st.registry name).handlers ∧
    ((installName h st name).sessions h).saved_disabled name = some (st.registry name).disabled ∧
    ((installName h st name).sessions h).saved_propagate name = some (st.registry name).propagate := by
  simp [installName, mapUpdate]

theorem installName_saved_other {h : H} {st : LoggingWorld H} {name n : String}
    (hne : n ≠ name) :
    ((installName h st name).sessions h).saved_levels n = (st.sessions h).saved_levels n ∧
    ((installName h st name).sessions h).saved_handlers n = (st.sessions h).saved_handlers n ∧
    ((installName h st name).sessions h).saved_disabled n = (st.sessions h).saved_disabled n ∧
    ((installName h st name).sessions h).saved_propagate n = (st.sessions h).saved_propagate n := by
  simp [installName, mapUpdate, hne]

theorem foldl_installName_registry_not_mem {h : H} {n : String} :
    ∀ (names : List String) (st : LoggingWorld H), n ∉ names →
      ((names.foldl (installName h) st).registry n = st.registry n) := by
  intro names
  induction names with
  | nil => intro st _; rfl
  | cons m rest ih =>
    intro st hn
    have hnm : n ≠ m := fun hcon => hn (by simp [hcon])
    have hnr : n ∉ rest := fun hcon => hn (List.mem_cons_of_mem _ hcon)
    rw [List.foldl_cons, ih _ hnr, installName_registry_other hnm]

theorem foldl_installName_saved_not_mem {h : H} {n : String} :
    ∀ (names : List String) (st : LoggingWorld H), n ∉ names →
      (((names.foldl (installName h) st).sessions h).saved_levels n =
          (st.sessions h).saved_levels n ∧
        ((names.foldl (installName h) st).sessions h).saved_handlers n =
          (st.sessions h).saved_handlers n ∧
        ((names.foldl (installName h) st).sessions h).saved_disabled n =
          (st.sessions h).saved_disabled n ∧
        ((names.foldl (installName h) st).sessions h).saved_propagate n =
          (st.sessions h).saved_propagate n) := by
  intro names
  induction names with
  | nil => intro st _; exact ⟨rfl, rfl, rfl, rfl⟩
  | cons m rest ih =>
    intro st hn
    have hnm : n ≠ m := fun hcon => hn (by simp [hcon])
    have hnr : n ∉ rest := fun hcon => hn (List.mem_cons_of_mem _ hcon)
    obtain ⟨a, b, c, d⟩ := ih (installName h st m) hnr
    obtain ⟨a2, b2, c2, d2⟩ := @installName_saved_other H _ h st m n hnm
    exact ⟨a.trans a2, b.trans b2, c.trans c2, d.trans d2⟩

theorem foldl_installName_static {h : H} (g : H) :
    ∀ (names : List String) (st : LoggingWorld H),
      (((names.foldl (installName h) st).sessions g).names = (st.sessions g).names ∧
        ((names.foldl (installName h) st).sessions g).level = (st.sessions g).level ∧
        ((names.foldl (installName h) st).sessions g).propagate = (st.sessions g).propagate ∧
        (names.foldl (installName h) st).instances = st.instances) := by
  intro names
  induction names with
  | nil => intro st; exact ⟨rfl, rfl, rfl, rfl⟩
  | cons m rest ih =>
    intro st
    obtain ⟨a, b, c, d⟩ := ih (installName h st m)
    obtain ⟨a2, b2, c2, d2⟩ := @installName_static H _ h st m g
    exact ⟨a.trans a2, b.trans b2, c.trans c2, d.trans d2⟩

theorem foldl_installName_spec {h : H} {n : String} :
    ∀ (names : List String) (st : LoggingWorld H),
      names.Nodup → n ∈ names →
      ((names.foldl (installName h) st).registry n =
          captureConfig h (st.sessions h) (st.registry n) ∧
        ((names.foldl (installName h) st).sessions h).saved_levels n =
          some (st.registry n).level ∧
        ((names.foldl (installName h) st).sessions h).saved_handlers n =
          some (st.registry n).handlers ∧
        ((names.foldl (installName h) st).sessions h).saved_disabled n =
          some (st.registry n).disabled ∧
        ((names.foldl (installName h) st).sessions h).saved_propagate n =
          some (st.registry n).propagate) := by
  intro names
  induction names with
  | nil => intro st _ hmem; exact absurd hmem (List.not_mem_nil n)
  | cons m rest ih =>
    intro st hnd hmem
    rw [List.nodup_cons] at hnd
    rw [List.foldl_cons]
    by_cases hnm : n = m
    · subst hnm
      have hnr : n ∉ rest := hnd.1
      obtain ⟨sl, sh, sd, sp⟩ := foldl_installName_saved_not_mem rest (installName h st n) hnr
      obtain ⟨s2l, s2h, s2d, s2p⟩ := @installName_saved_same H _ h st n
      refine ⟨?_, sl.trans s2l, sh.trans s2h, sd.trans s2d, sp.trans s2p⟩
      rw [foldl_installName_registry_not_mem rest _ hnr, installName_registry_same]
    · have hnr : n ∈ rest := by
        cases hmem with
        | head => exact absurd rfl hnm
        | tail _ hx => exact hx
      obtain ⟨r, sl, sh, sd, sp⟩ := ih (installName h st m) hnd.2 hnr
      have hreg : (installName h st m).registry n = st.registry n :=
        installName_registry_other hnm
      obtain ⟨hnames, hlevel, hprop, hinst⟩ :=
        @installName_static H _ h st m h
      refine ⟨?_, ?_, ?_, ?_, ?_⟩
      · rw [r, hreg]
        unfold captureConfig
        rw [hlevel, hprop]
      · rw [sl, hreg]
      · rw [sh, hreg]
      · rw [sd, hreg]
      · rw [sp, hreg]

theorem uninstallName_sessions {h : H} {st : LoggingWorld H} {name : String} :
    (uninstallName h st name).sessions = st.sessions := rfl

theorem uninstallName_instances {h : H} {st : LoggingWorld H} {name : String} :
    (uninstallName h st name).instances = st.instances := rfl

theorem uninstallName_registry_other {h : H} {st : LoggingWorld H} {name n : String}
    (hne : n ≠ name) : (uninstallName h st name).registry n = st.registry n := by
  simp [uninstallName, mapUpdate, hne]

theorem foldl_uninstallName_sessions {h : H} :
    ∀ (names : List String) (st : LoggingWorld H),
      (names.foldl (uninstallName h) st).sessions = st.sessions := by
  intro names
  induction names with
  | nil => intro st; rfl
  | cons m rest ih => intro st; rw [List.foldl_cons, ih, uninstallName_sessions]

theorem foldl_uninstallName_instances {h : H} :
    ∀ (names : List String) (st : LoggingWorld H),
      (names.foldl (uninstallName h) st).instances = st.instances := by
  intro names
  induction names with
  | nil => intro st; rfl
  | cons m rest ih => intro st; rw [List.foldl_cons, ih, uninstallName_instances]

theorem foldl_uninstallName_registry_not_mem {h : H} {n : String} :
    ∀ (names : List String) (st : LoggingWorld H), n ∉ names →
      (names.foldl (uninstallName h) st).registry n = st.registry n := by
  intro names
  induction names with
  | nil => intro st _; rfl
  | cons m rest ih =>
    intro st hn
    have hnm : n ≠ m := fun hcon => hn (by simp [hcon])
    have hnr : n ∉ rest := fun hcon => hn (List.mem_cons_of_mem _ hcon)
    rw [List.foldl_cons, ih _ hnr, uninstallName_registry_other hnm]

theorem foldl_uninstallName_spec {h : H} {n : String} {lv : Nat} {hs : List H}
    {db pr : Bool} :
    ∀ (names : List String) (st : LoggingWorld H),
      names.Nodup → n ∈ names →
      (st.sessions h).saved_levels n = some lv →
      (st.sessions h).saved_handlers n = some hs →
      (st.sessions h).saved_disabled n = some db →
      (st.sessions h).saved_propagate n = some pr →
      (names.foldl (uninstallName h) st).registry n =
        { level := lv, handlers := hs, disabled := db, propagate := pr } := by
  intro names
  induction names with
  | nil => intro st _ hmem; exact absurd hmem (List.not_mem_nil n)
  | cons m rest ih =>
    intro st hnd hmem h1 h2 h3 h4
    rw [List.nodup_cons] at hnd
    rw [List.foldl_cons]
    by_cases hnm : n = m
    · subst hnm
      rw [foldl_uninstallName_registry_not_mem rest _ hnd.1]
      simp [uninstallName, mapUpdate, h1, h2, h3, h4]
    · have hnr : n ∈ rest := by
        cases hmem with
        | head => exact absurd rfl hnm
        | tail _ hx => exact hx
      exact ih (uninstallName h st m) hnd.2 hnr h1 h2 h3 h4

theorem mem_addInstance {l : List H} {h s : H} :
    s ∈ addInstance l h ↔ s = h ∨ s ∈ l := by
  unfold addInstance
  split
  · constructor
    · exact fun hs => Or.inr hs
    · rintro (rfl | hs)
      · assumption
      · assumption
  · simp

theorem mem_install_instances {h s : H} {st : LoggingWorld H} :
    s ∈ (install h st).instances ↔ s = h ∨ s ∈ st.instances := by
  show s ∈ addInstance (((st.sessions h).names).foldl (installName h) st).instances h ↔ _
  rw [(foldl_installName_static h _ st).2.2.2]
  exact mem_addInstance

theorem uninstall_not_mem {h : H} {st : LoggingWorld H}
    (hni : h ∉ st.instances) : uninstall h st = st := by
  unfold uninstall
  rw [if_neg hni]

theorem mem_uninstall_instances {h s : H} {st : LoggingWorld H} :
    s ∈ (uninstall h st).instances ↔ s ∈ st.instances ∧ s ≠ h := by
  unfold uninstall
  by_cases hmem : h ∈ st.instances
  · rw [if_pos hmem]
    show s ∈ ((((st.sessions h).names).foldl (uninstallName h) st).instances.filter
      (fun x => x != h)) ↔ _
    rw [foldl_uninstallName_instances]
    simp [List.mem_filter]
  · rw [if_neg hmem]
    constructor
    · intro hs
      refine ⟨hs, ?_⟩
      rintro rfl
      exact hmem hs
    · exact fun hx => hx.1

theorem uninstall_foldl_shrinks {s : H} :
    ∀ (l : List H) (st : LoggingWorld H),
      s ∈ (l.foldl (fun acc h => uninstall h acc) st).instances →
      s ∈ st.instances ∧ s ∉ l := by
  intro l
  induction l with
  | nil => intro st hs; exact ⟨hs, by simp⟩
  | cons h rest ih =>
    intro st hs
    rw [List.foldl_cons] at hs
    obtain ⟨hs2, hnr⟩ := ih (uninstall h st) hs
    rw [mem_uninstall_instances] at hs2
    refine ⟨hs2.1, ?_⟩
    intro hcon
    cases hcon with
    | head => exact hs2.2 rfl
    | tail _ hx => exact hnr hx

theorem uninstall_all_instances_nil (st : LoggingWorld H) :
    (uninstall_all st).instances = [] := by
  rw [List.eq_nil_iff_forall_not_mem]
  intro s hs
  obtain ⟨hmem, hnmem⟩ := uninstall_foldl_shrinks st.instances st hs
  exact hnmem hmem

theorem install_sessions_names {h : H} {st : LoggingWorld H} (g : H) :
    ((install h st).sessions g).names = (st.sessions g).names := by
  show ((((st.sessions h).names).foldl (installName h) st).sessions g).names = _
  exact (foldl_installName_static g _ st).1

theorem install_mem_self {h : H} {st : LoggingWorld H} :
    h ∈ (install h st).instances := by
  rw [mem_install_instances]
  exact Or.inl rfl

theorem uninstall_registry_of_mem {h : H} {st : LoggingWorld H}
    (hmem : h ∈ st.instances) :
    (uninstall h st).registry = (((st.sessions h).names).foldl (uninstallName h) st).registry := by
  unfold uninstall
  rw [if_pos hmem]

theorem install_registry {h : H} {st : LoggingWorld H} :
    (install h st).registry = (((st.sessions h).names).foldl (installName h) st).registry := rfl

theorem install_sessions {h : H} {st : LoggingWorld H} :
    (install h st).sessions = (((st.sessions h).names).foldl (installName h) st).sessions := rfl

theorem install_uninstall_registry {h : H} {st : LoggingWorld H}
    (hnd : ((st.sessions h).names).Nodup) (n : String) :
    (uninstall h (install h st)).registry n = st.registry n := by
  have hmem : h ∈ (install h st).instances := install_mem_self
  rw [uninstall_registry_of_mem hmem]
  rw [install_sessions_names h]
  by_cases hn : n ∈ (st.sessions h).names
  · obtain ⟨hreg, sl, sh, sd, sp⟩ :=
      @foldl_installName_spec H _ h n ((st.sessions h).names) st hnd hn
    have el : ((install h st).sessions h).saved_levels n = some (st.registry n).level := by
      rw [install_sessions]; exact sl
    have eh : ((install h st).sessions h).saved_handlers n = some (st.registry n).handlers := by
      rw [install_sessions]; exact sh
    have ed : ((install h st).sessions h).saved_disabled n = some (st.registry n).disabled := by
      rw [install_sessions]; exact sd
    have ep : ((install h st).sessions h).saved_propagate n = some (st.registry n).propagate := by
      rw [install_sessions]; exact sp
    rw [foldl_uninstallName_spec ((st.sessions h).names) (install h st) hnd hn el eh ed ep]
  · rw [foldl_uninstallName_registry_not_mem _ _ hn, install_registry,
      foldl_installName_registry_not_mem _ _ hn]

theorem uninstall_idem (h : H) (st : LoggingWorld H) :
    uninstall h (uninstall h st) = uninstall h st := by
  apply uninstall_not_mem
  rw [mem_uninstall_instances]
  rintro ⟨-, hne⟩
  exact hne rfl

theorem double_install_uninstall_registry {h : H} {st : LoggingWorld H}
    (hnd : ((st.sessions h).names).Nodup) {n : String}
    (hn : n ∈ (st.sessions h).names) :
    (uninstall h (install h (install h st))).registry n =
      captureConfig h (st.sessions h) (st.registry n) := by
  have names1 : ((install h st).sessions h).names = (st.sessions h).names :=
    install_sessions_names h
  have names2 : ((install h (install h st)).sessions h).names = (st.sessions h).names := by
    rw [install_sessions_names h, names1]
  have hmem2 : h ∈ (install h (install h st)).instances := install_mem_self
  have hreg1 : (install h st).registry n =
      captureConfig h (st.sessions h) (st.registry n) := by
    rw [install_registry]
    exact (@foldl_installName_spec H _ h n _ st hnd hn).1
  have hsaved := @foldl_installName_spec H _ h n
    (((install h st).sessions h).names) (install h st)
    (by rw [names1]; exact hnd) (by rw [names1]; exact hn)
  obtain ⟨-, sl, sh, sd2, sp⟩ := hsaved
  have el : ((install h (install h st)).sessions h).saved_levels n =
      some ((install h st).registry n).level := by
    rw [install_sessions]; exact sl
  have eh : ((install h (install h st)).sessions h).saved_handlers n =
      some ((install h st).registry n).handlers := by
    rw [install_sessions]; exact sh
  have ed : ((install h (install h st)).sessions h).saved_disabled n =
      some ((install h st).registry n).disabled := by
    rw [install_sessions]; exact sd2
  have ep : ((install h (install h st)).sessions h).saved_propagate n =
      some ((install h st).registry n).propagate := by
    rw [install_sessions]; exact sp
  rw [uninstall_registry_of_mem hmem2, names2]
  rw [foldl_uninstallName_spec ((st.sessions h).names) _
    hnd hn el eh ed ep]
  rw [hreg1]

/-! ### Keyword handling of `check_present` (logcapture.py lines 201-202) -/

/-- The only keyword parameter `check_present` recognises. -/
def order_matters_key : String := "order_matters"

/-- The message of the `assert not kw` failure. -/
def kw_assert_message : String := "order_matters is the only keyword parameter"

/-- The keyword handling at the top of `LogCapture.check_present`:
`kw.pop(order_matters, True)` followed by `assert not kw`. The keyword
dictionary is modelled as an association list; on success the value of the
`order_matters` flag is returned. -/
def check_present_kw (kw : List (String × Bool)) : Except String Bool :=
  let order_matters := (kw.lookup order_matters_key).getD true
  if (kw.filter (fun p => p.1 != order_matters_key)).isEmpty then
    Except.ok order_matters
  else
    Except.error kw_assert_message

theorem compareRaisesOn_eq_false_iff {β : Type} [DecidableEq β]
    {e a : List β} {r : Bool} :
    compareRaisesOn e a r = false ↔ e = a := by
  unfold compareRaisesOn compareMismatch
  split <;> simp_all

theorem compareRaisesOn_eq_true_iff {β : Type} [DecidableEq β]
    {e a : List β} {r : Bool} :
    compareRaisesOn e a r = true ↔ e ≠ a := by
  unfold compareRaisesOn compareMismatch
  split <;> simp_all

/-! ## Claim theorems -/

/-- C3: the order-sensitive `check_present` returns without raising exactly
when the expected rows occur in the actual rows as an ordered,
possibly-gapped subsequence; trailing unmatched actual rows are ignored.
In particular `[A, C]` against `[A, B, C, D]` succeeds while `[C, A]`
against the same actual raises. -/
theorem claim3_ordered_present_iff_sublist (expected actual : List α)
    (recursive : Bool) :
    orderedRaises expected actual recursive = false ↔ expected.Sublist actual := by
  unfold orderedRaises
  cases hres : check_present_ordered expected actual with
  | allMatched =>
    have hsub : expected.Sublist actual := by
      have hg := (presentLoop_allMatched_iff actual expected [0] []).mp hres
      have := (greedyFrom_iff_sublist actual expected 0).mp (by simpa using hg)
      simpa using this
    simp [hsub]
  | compareCall m c =>
    have hne : m ++ actual.drop c ≠ expected := by
      have := presentLoop_compareCall_ne actual expected [0] []
        (Or.inl ⟨rfl, rfl⟩) m c hres
      simpa using this
    have hnsub : ¬ expected.Sublist actual := by
      intro hsub
      have hg : greedyFrom actual expected 0 = true :=
        (greedyFrom_iff_sublist actual expected 0).mpr (by simpa using hsub)
      have hall : presentLoop actual expected [0] [] = OrderedOutcome.allMatched :=
        (presentLoop_allMatched_iff actual expected [0] []).mpr (by simpa using hg)
      have hall2 : check_present_ordered expected actual = OrderedOutcome.allMatched := hall
      rw [hres] at hall2
      simp at hall2
    simp only
    rw [compareRaisesOn_eq_false_iff]
    constructor
    · intro heq
      exact absurd heq.symm hne
    · intro hsub
      exact absurd hsub hnsub

/-- C1 counterexample: the order-sensitive matcher does not retry the
failed search after dropping the most recent match, and it fails even when
the missing entry is locatable from one position before the failed cursor.
With `expected = [0, 0]` and `actual = [1, 0]`, the first expected `0` is
matched at index 1, the search for the second expected `0` from cursor 2
fails, the matcher pops the single prior match and issues the failing
comparison: yet `0` is locatable at index 1, one position before the
failed cursor (and equally from the backtracked cursor 0), so under the
claim the check should have succeeded after the backtrack. -/
theorem claim1_counterexample :
    check_present_ordered ([0, 0] : List Nat) [1, 0] =
      OrderedOutcome.compareCall [] 0 ∧
    findFrom ([1, 0] : List Nat) 0 1 = some 1 ∧
    findFrom ([1, 0] : List Nat) 0 0 = some 1 ∧
    orderedRaises ([0, 0] : List Nat) [1, 0] false = true := by
  decide

/-- C1 (amended): when the next expected entry cannot be found in `actual`
at or after the cursor and at least one prior match exists, the matcher
pops the most recent match and rewinds the cursor to the previous
position, but performs no retry of the search: matching stops and the
failure report is produced via the comparison service comparing the
expected rows against the popped matched-so-far rows plus the remaining
actual rows from the backtracked cursor onward, and this comparison always
fails, so the check always raises once an entry cannot be located. -/
theorem claim1_backtrack_drop_always_fails (actual : List α) (entry x : α)
    (rest m₀ : List α) (inds₀ : List Nat) (i : Nat) (recursive : Bool)
    (h0 : inds₀ ≠ [])
    (hx : findFrom actual x (inds₀.getLastD 0) = some i)
    (hentry : findFrom actual entry ((inds₀ ++ [i + 1]).getLastD 0) = Option.none) :
    presentLoop actual (entry :: rest) (inds₀ ++ [i + 1]) (m₀ ++ [x]) =
      OrderedOutcome.compareCall m₀ (inds₀.getLastD 0) ∧
    compareRaisesOn ((m₀ ++ [x]) ++ entry :: rest)
      (m₀ ++ actual.drop (inds₀.getLastD 0)) recursive = true := by
  have hlen : 1 < (inds₀ ++ [i + 1]).length := by
    have := List.length_pos.mpr h0
    simp [List.length_append]
    omega
  have hloop : presentLoop actual (entry :: rest) (inds₀ ++ [i + 1]) (m₀ ++ [x]) =
      OrderedOutcome.compareCall m₀ (inds₀.getLastD 0) := by
    unfold presentLoop
    rw [hentry]
    rw [if_pos hlen, List.dropLast_concat, List.dropLast_concat]
  refine ⟨hloop, ?_⟩
  have hinv : LoopInv actual (inds₀ ++ [i + 1]) (m₀ ++ [x]) :=
    Or.inr ⟨inds₀, i, m₀, x, rfl, rfl, h0, hx⟩
  have hne := presentLoop_compareCall_ne actual (entry :: rest)
    (inds₀ ++ [i + 1]) (m₀ ++ [x]) hinv m₀ (inds₀.getLastD 0) hloop
  rw [compareRaisesOn_eq_true_iff]
  exact fun heq => hne heq.symm

/-- C1 witness: the amended theorem applied to the counterexample state. -/
theorem claim1_backtrack_drop_always_fails_witness :
    ([0] : List Nat) ≠ [] ∧
    findFrom ([1, 0] : List Nat) 0 (([0] : List Nat).getLastD 0) = some 1 ∧
    findFrom ([1, 0] : List Nat) 0 ((([0] : List Nat) ++ [1 + 1]).getLastD 0) =
      Option.none ∧
    (presentLoop ([1, 0] : List Nat) [0] ([0] ++ [1 + 1]) ([] ++ [0]) =
        OrderedOutcome.compareCall [] (([0] : List Nat).getLastD 0) ∧
      compareRaisesOn ((([] : List Nat) ++ [0]) ++ [0])
        ([] ++ ([1, 0] : List Nat).drop (([0] : List Nat).getLastD 0)) true = true) :=
  ⟨by decide, by decide, by decide,
    claim1_backtrack_drop_always_fails [1, 0] 0 0 [] [] [0] 1 true
      (by decide) (by decide) (by decide)⟩

/-- C4: the order-insensitive `check_present` scans the actual rows in
order, popping each matching row from the expected pool and stopping once
the pool is empty; it returns silently exactly when the pool is emptied,
which happens exactly when the expected rows form a sub-multiset of the
actual rows. Otherwise the raised error (built by string formatting, not by
the comparison service) renders the matched rows, the remaining unmatched
expected rows, and the other observed rows; the matched rows plus the
remaining pool are a permutation of the original expected rows. -/
theorem claim4_unordered_present_spec (expected actualL : List α) :
    (check_present_unordered expected actualL = Option.none ↔
      expected.Subperm actualL) ∧
    (∀ r : UnorderedState α,
      check_present_unordered expected actualL = some r →
      r.pool ≠ [] ∧ (r.matched ++ r.pool).Perm expected) := by
  constructor
  · constructor
    · intro h
      unfold check_present_unordered at h
      split at h
      · rename_i hcond
        rw [List.isEmpty_iff] at hcond
        rw [← unorderedLoop_pool_empty_iff actualL expected [] []]
        exact hcond
      · exact absurd h (by simp)
    · intro hsub
      unfold check_present_unordered
      have hpool : (unorderedLoop actualL expected [] []).pool = [] :=
        (unorderedLoop_pool_empty_iff actualL expected [] []).mpr hsub
      rw [if_pos (List.isEmpty_iff.mpr hpool)]
  · intro r hr
    unfold check_present_unordered at hr
    split at hr
    · exact absurd hr (by simp)
    · rename_i hcond
      obtain rfl : unorderedLoop actualL expected [] [] = r := by
        injection hr
      constructor
      · intro hnil
        exact hcond (List.isEmpty_iff.mpr hnil)
      · have := unorderedLoop_matched_pool_perm actualL expected [] []
        simpa using this

/-- C4 witness: the spec theorem applied to `expected = [5]`, `actual = []`,
whose failure state has pool `[5]`, no matches and no other entries. -/
theorem claim4_unordered_present_spec_witness :
    check_present_unordered ([5] : List Nat) [] = some ⟨[5], [], []⟩ ∧
    (([5] : List Nat) ≠ [] ∧ (([] : List Nat) ++ [5]).Perm [5]) :=
  ⟨by decide,
    by
      have h := (claim4_unordered_present_spec ([5] : List Nat) []).2
        ⟨[5], [], []⟩ (by decide)
      exact h⟩

/-- C9: `check_present` raises (the Python `assert not kw`, the spec calls
it `UsageError`) exactly when it is passed a keyword option other than
`order_matters`; `order_matters` itself defaults to `True`, and a supplied
`order_matters` value is returned as given. -/
theorem claim9_check_present_kw (kw : List (String × Bool)) :
    ((check_present_kw kw).isOk = false ↔
      ∃ p ∈ kw, p.1 ≠ order_matters_key) ∧
    check_present_kw [] = Except.ok true ∧
    (∀ b : Bool, check_present_kw [(order_matters_key, b)] = Except.ok b) := by
  refine ⟨?_, ?_, ?_⟩
  · unfold check_present_kw
    by_cases hf : (kw.filter (fun p => p.1 != order_matters_key)).isEmpty
    · rw [if_pos hf]
      have hall : ∀ p ∈ kw, p.1 = order_matters_key := by
        rw [List.isEmpty_iff, List.filter_eq_nil_iff] at hf
        intro p hp
        have := hf p hp
        simpa using this
      constructor
      · intro hcon
        simp [Except.isOk, Except.toBool] at hcon
      · rintro ⟨p, hp, hne⟩
        exact absurd (hall p hp) hne
    · rw [if_neg hf]
      have hne : kw.filter (fun p => p.1 != order_matters_key) ≠ [] := by
        rwa [ne_eq, ← List.isEmpty_iff]
      obtain ⟨p, hp⟩ := List.exists_mem_of_ne_nil _ hne
      rw [List.mem_filter] at hp
      constructor
      · intro _
        exact ⟨p, hp.1, by simpa using hp.2⟩
      · intro _
        simp [Except.isOk, Except.toBool]
  · rfl
  · intro b
    unfold check_present_kw
    simp [List.lookup, List.filter]

/-- C9 witness: an unrecognised keyword makes `check_present` raise. -/
theorem claim9_check_present_kw_witness :
    (check_present_kw [("junk", true)]).isOk = false :=
  (claim9_check_present_kw [("junk", true)]).1.mpr
    ⟨("junk", true), by simp, by decide⟩

/-- C5: with a sequence of attribute selectors, each selector is looked up
as an attribute (a missing attribute resolves to the `None` sentinel), a
callable resolved value is invoked with no arguments, and the results are
collected in selector order; a single selector yields the bare value while
any other arity yields the full tuple, and `actual()` applies the
projection to every buffered record in buffer order. -/
theorem claim5_projection_spec (a : String) (attributes : List String)
    (record : LogRecord) (records : List LogRecord) (f : Unit → PyVal)
    (v : PyVal) :
    (projectRecord [a] record = Row.scalar (resolveAttr (pyGetattr record a))) ∧
    (attributes.length ≠ 1 →
      projectRecord attributes record =
        Row.tuple (attributes.map (fun s => resolveAttr (pyGetattr record s)))) ∧
    (record.attrs a = Option.none →
      resolveAttr (pyGetattr record a) = PyVal.pyNone) ∧
    (record.attrs a = some (PyAttr.callable0 f) →
      resolveAttr (pyGetattr record a) = f ()) ∧
    (record.attrs a = some (PyAttr.plain v) →
      resolveAttr (pyGetattr record a) = v) ∧
    (∀ i : Nat, (actualRows (Extraction.attrNames attributes) records)[i]? =
      (records[i]?).map (projectRecord attributes)) := by
  refine ⟨rfl, ?_, ?_, ?_, ?_, ?_⟩
  · intro hlen
    exact projectRecord_not_single hlen
  · intro h
    simp [pyGetattr, resolveAttr, h]
  · intro h
    simp [pyGetattr, resolveAttr, h]
  · intro h
    simp [pyGetattr, resolveAttr, h]
  · intro i
    show (records.map (projectRecord attributes))[i]? = _
    rw [List.getElem?_map]

/-- A record with no attributes at all, for the C5 witness. -/
def emptyRecord : LogRecord := ⟨fun _ => Option.none⟩

/-- The attribute name used in concrete witnesses. -/
def attr_name : String := "name"

/-- C5 witness: the projection spec applied to a record with a missing
attribute resolves the selector to the `None` sentinel. -/
theorem claim5_projection_spec_witness :
    resolveAttr (pyGetattr emptyRecord attr_name) = PyVal.pyNone :=
  (claim5_projection_spec attr_name [] emptyRecord []
    (fun _ => PyVal.pyNone) PyVal.pyNone).2.2.1 rfl

/-- C6: `check` delegates to the comparison service on
`(expected, actual(), recursive)`: it succeeds exactly when the projected
actual rows equal the expected rows elementwise in order (any difference of
length or of any element makes it raise a `MismatchError`), and the raised
error carries the expected/actual pair. Deep and structural element
equality coincide in this embedding, so the `recursive` flag does not
change the verdict. -/
theorem claim6_check_compare_spec (extraction : Extraction) (recursive : Bool)
    (records : List LogRecord) (expected : List Row) :
    (check extraction recursive records expected = Option.none ↔
      (expected.length = (actualRows extraction records).length ∧
        ∀ i : Nat, expected[i]? = (actualRows extraction records)[i]?)) ∧
    (∀ d, check extraction recursive records expected = some d →
      d = (expected, actualRows extraction records)) := by
  constructor
  · unfold check
    rw [compareMismatch_eq_none_iff]
    constructor
    · rintro rfl
      exact ⟨rfl, fun i => rfl⟩
    · rintro ⟨-, hpt⟩
      exact List.ext_getElem? hpt
  · intro d hd
    unfold check compareMismatch at hd
    split at hd
    · exact absurd hd (by simp)
    · injection hd with hd2
      exact hd2.symm

/-- C6 witness: a mismatching call raises and the error carries the
expected/actual pair. -/
theorem claim6_check_compare_spec_witness :
    check (Extraction.attrNames [attr_name]) false []
        [Row.scalar PyVal.pyNone] = some ([Row.scalar PyVal.pyNone], []) ∧
    (([Row.scalar PyVal.pyNone], []) =
      ([Row.scalar PyVal.pyNone],
        actualRows (Extraction.attrNames [attr_name]) [])) :=
  ⟨by decide,
    (claim6_check_compare_spec (Extraction.attrNames [attr_name]) false []
      [Row.scalar PyVal.pyNone]).2 ([Row.scalar PyVal.pyNone], []) (by decide)⟩

/-- C2: for every target logger name, `install` snapshots the level,
handler list, disabled flag and propagation flag of that logger before
mutating it (the snapshot conjuncts of `foldl_installName_spec`), and
`uninstall` restores all four exactly, so an install immediately followed
by an uninstall leaves the registry entry of every name identical to its
pre-install state. The target names are assumed distinct, matching the
ordered-set reading of `targets` in the spec. -/
theorem claim2_install_uninstall_roundtrip {H : Type} [DecidableEq H]
    (st : LoggingWorld H) (h : H) (hnd : ((st.sessions h).names).Nodup)
    (n : String) :
    (uninstall h (install h st)).registry n = st.registry n :=
  install_uninstall_registry hnd n

/-- C7: `uninstall` is idempotent and a silent no-op when the session is
not installed: after an install/uninstall pair a second `uninstall` leaves
the whole world unchanged, the registry already matches the pre-install
snapshot after the first call, and `uninstall` on a never-installed
session returns the world untouched (so no snapshot lookup can fail and
nothing is raised). -/
theorem claim7_uninstall_idempotent {H : Type} [DecidableEq H]
    (st : LoggingWorld H) (h : H) (hnd : ((st.sessions h).names).Nodup) :
    uninstall h (uninstall h (install h st)) = uninstall h (install h st) ∧
    (∀ n, (uninstall h (install h st)).registry n = st.registry n) ∧
    (h ∉ st.instances → uninstall h st = st) := by
  refine ⟨uninstall_idem h (install h st), ?_, uninstall_not_mem⟩
  intro n
  exact install_uninstall_registry hnd n

/-- C8: the process-wide `instances` set holds exactly the sessions that
have been installed and not yet uninstalled (`install` adds the session,
`uninstall` removes it), and `uninstall_all`, which folds `uninstall` over
a snapshot of the set, leaves the active set empty. -/
theorem claim8_instances_set_spec {H : Type} [DecidableEq H]
    (st : LoggingWorld H) (h s : H) :
    (s ∈ (install h st).instances ↔ s = h ∨ s ∈ st.instances) ∧
    (s ∈ (uninstall h st).instances ↔ s ∈ st.instances ∧ s ≠ h) ∧
    (uninstall_all st).instances = [] :=
  ⟨mem_install_instances, mem_uninstall_instances, uninstall_all_instances_nil st⟩

/-- C10: a second `install` without an intervening `uninstall` overwrites
the per-name snapshot with the configuration produced by the first install
(level = capture level, handlers = the singleton capture handler, disabled
cleared, propagate per the override), so the following `uninstall`
restores that configuration instead of the true pre-install one: the
capture handler remains the sole handler of every target logger. -/
theorem claim10_nested_install_overwrite {H : Type} [DecidableEq H]
    (st : LoggingWorld H) (h : H) (hnd : ((st.sessions h).names).Nodup)
    (n : String) (hn : n ∈ (st.sessions h).names) :
    (uninstall h (install h (install h st))).registry n =
      { level := (st.sessions h).level
        handlers := [h]
        disabled := false
        propagate := ((st.sessions h).propagate).getD ((st.registry n).propagate) } := by
  rw [double_install_uninstall_registry hnd hn]
  cases hp : (st.sessions h).propagate with
  | none => simp [captureConfig, hp]
  | some p => simp [captureConfig, hp]

/-- The logger name targeted in the concrete lifecycle witnesses. -/
def logger_name_a : String := "a"

/-- A concrete world for the lifecycle witnesses: one session (handler 0)
targeting logger `a`, which starts at level 7 with no handlers, disabled,
and propagating. -/
def sampleWorld : LoggingWorld Nat :=
  { registry := fun _ =>
      { level := 7, handlers := [], disabled := true, propagate := true }
    sessions := fun _ =>
      { names := [logger_name_a]
        level := 1
        propagate := Option.none
        saved_levels := fun _ => Option.none
        saved_handlers := fun _ => Option.none
        saved_disabled := fun _ => Option.none
        saved_propagate := fun _ => Option.none }
    instances := [] }

/-- C2 witness: the round trip on the concrete world restores logger `a`. -/
theorem claim2_install_uninstall_roundtrip_witness :
    ((sampleWorld.sessions 0).names).Nodup ∧
    (uninstall 0 (install 0 sampleWorld)).registry logger_name_a =
      sampleWorld.registry logger_name_a :=
  ⟨by decide,
    claim2_install_uninstall_roundtrip sampleWorld 0 (by decide) logger_name_a⟩

/-- C7 witness: idempotence and the never-installed no-op on the concrete
world. -/
theorem claim7_uninstall_idempotent_witness :
    ((sampleWorld.sessions 0).names).Nodup ∧
    0 ∉ sampleWorld.instances ∧
    uninstall 0 sampleWorld = sampleWorld :=
  ⟨by decide, by decide,
    (claim7_uninstall_idempotent sampleWorld 0 (by decide)).2.2 (by decide)⟩

/-- C10 witness: on the concrete world a nested install followed by one
uninstall leaves logger `a` with the capture configuration, not its
original configuration. -/
theorem claim10_nested_install_overwrite_witness :
    ((sampleWorld.sessions 0).names).Nodup ∧
    logger_name_a ∈ (sampleWorld.sessions 0).names ∧
    (uninstall 0 (install 0 (install 0 sampleWorld))).registry logger_name_a =
      { level := (sampleWorld.sessions 0).level
        handlers := [0]
        disabled := false
        propagate := ((sampleWorld.sessions 0).propagate).getD
          ((sampleWorld.registry logger_name_a).propagate) } :=
  ⟨by decide, by decide,
    claim10_nested_install_overwrite sampleWorld 0 (by decide) logger_name_a
      (by decide)⟩
